import Mathlib

/-!
A verification development for the `subsample` command of vsearch
(`src/subsample.cc`): the streaming weighted selection-without-replacement
loop, the kept/discarded partition pass, and the surrounding precondition
checks, shallowly embedded over `Nat` and `List Nat`.

Conventions of the embedding:
* a population is a list `w : List Nat` of per-group abundances
  (`db_getabundance`); the group count `k` (`dbsequencecount`) is `w.length`;
* `sizein : Bool` is the `opt_sizein` flag: when it is false every group
  weighs 1 and the total mass is the group count;
* the random number generator is a function `rng : Nat → Nat` where `rng i`
  stands for the value returned by the i-th call `random_ulong(mass_total - i)`
  (the loop makes exactly one call per examined virtual unit, and `r` counts
  those units, so the draw index is `r`); the contract of `random_ulong` —
  the returned value is strictly below the exclusive bound — becomes the
  hypothesis `∀ i, i < M → rng i < M - i` on the theorems that need it.
-/

namespace Subsample

/-- Per-group weight of group `i`: `opt_sizein ? db_getabundance(i) : 1`
(lines 186, 207, 220 of `subsample.cc`).  Reading past the end of the
population yields the `getD` default 0 in weighted mode. -/
def groupWeight (sizein : Bool) (w : List Nat) (i : Nat) : Nat :=
  if sizein then w.getD i 0 else 1

/-- Total mass of the population (lines 135–147 of `subsample.cc`):
the summed abundances with `--sizein`, the sequence count without. -/
def massTotal (sizein : Bool) (w : List Nat) : Nat :=
  if sizein then w.sum else w.length

/-- `abundance[a]++` on a `std::vector<int>` of length `k`:
bump the count stored at index `i`. -/
def incAt (l : List Nat) (i : Nat) : List Nat :=
  l.set i (l.getD i 0 + 1)

/-- The local state of the selection loop (lines 180–186 of `subsample.cc`):
`x` reads left to select, `a` current amplicon, `r` virtual units examined,
`m` units consumed inside the current amplicon, `mass` the current amplicon's
weight, `s` the per-group selected counts (`abundance`).  `reads` logs the
index of every `db_getabundance` call the loop performs when advancing to the
next amplicon, so that index-range safety can be stated; the initial read
`db_getabundance(0)` of line 186 happens before the loop and is not logged. -/
structure SelState where
  x : Nat
  a : Nat
  r : Nat
  m : Nat
  mass : Nat
  s : List Nat
  reads : List Nat
  deriving Repr, DecidableEq

/-- One iteration of the `while (x > 0)` body (lines 192–210 of
`subsample.cc`): draw, conditionally select the current virtual unit,
advance the unit counters, and move to the next amplicon once the current
one's mass is consumed. -/
def selStep (sizein : Bool) (w : List Nat) (rng : Nat → Nat)
    (st : SelState) : SelState :=
  let selected := rng st.r < st.x
  let s' := if selected then incAt st.s st.a else st.s
  let x' := if selected then st.x - 1 else st.x
  let m' := st.m + 1
  if st.mass ≤ m' then
    { x := x', a := st.a + 1, r := st.r + 1, m := 0,
      mass := groupWeight sizein w (st.a + 1), s := s',
      reads := st.reads ++ (if sizein then [st.a + 1] else []) }
  else
    { x := x', a := st.a, r := st.r + 1, m := m', mass := st.mass, s := s',
      reads := st.reads }

/-- The `while (x > 0)` loop, run for at most `fuel` iterations.
`massTotal` iterations always suffice (proved below), so the fuelled
function at fuel `massTotal` is the loop of lines 190–211. -/
def selLoop (sizein : Bool) (w : List Nat) (rng : Nat → Nat) :
    Nat → SelState → SelState
  | 0, st => st
  | fuel + 1, st =>
      if st.x = 0 then st
      else selLoop sizein w rng fuel (selStep sizein w rng st)

/-- The state just before the loop (lines 162, 180–186 of `subsample.cc`):
`n` reads still to select, counters zeroed, `abundance` a zeroed vector of
length `k`, and the first amplicon's mass loaded. -/
def selInit (sizein : Bool) (w : List Nat) (n : Nat) : SelState :=
  { x := n, a := 0, r := 0, m := 0,
    mass := groupWeight sizein w 0,
    s := List.replicate w.length 0,
    reads := [] }

/-- The whole selection phase: initialise and run the loop
(`massTotal` iterations of fuel always suffice). -/
def subsampleSelect (sizein : Bool) (w : List Nat) (n : Nat)
    (rng : Nat → Nat) : SelState :=
  selLoop sizein w rng (massTotal sizein w) (selInit sizein w n)

/-- The output pass (lines 217–286 of `subsample.cc`), restricted to the
record bookkeeping: for each index in `idxs`, compute `ab_sub = abundance[i]`
and `ab_discarded = (sizein ? w[i] : 1) - ab_sub` in `int64_t` arithmetic and
emit a kept record `(i, ab_sub)` when `ab_sub > 0` and a discarded record
`(i, ab_discarded)` when `ab_discarded > 0`. -/
def partitionAux (sizein : Bool) (w s : List Nat) :
    List Nat → List (Nat × Int) × List (Nat × Int)
  | [] => ([], [])
  | i :: rest =>
      let ab_sub : Int := (s.getD i 0 : Int)
      let ab_discarded : Int := (groupWeight sizein w i : Int) - ab_sub
      let p := partitionAux sizein w s rest
      ((if 0 < ab_sub then [(i, ab_sub)] else []) ++ p.1,
       (if 0 < ab_discarded then [(i, ab_discarded)] else []) ++ p.2)

/-- The output pass over all `k = dbsequencecount` groups in input order. -/
def partitionPass (sizein : Bool) (w s : List Nat) :
    List (Nat × Int) × List (Nat × Int) :=
  partitionAux sizein w s (List.range w.length)

/-- The value observed when a mathematical count `c` has been accumulated in
a 32-bit signed `int` (`std::vector<int> abundance`, line 162) and is then
read back (widened to `int64_t`, line 219): two's-complement wrap-around. -/
def int32store (c : Nat) : Int :=
  if c % 2 ^ 32 < 2 ^ 31 then ((c % 2 ^ 32 : Nat) : Int)
  else ((c % 2 ^ 32 : Nat) : Int) - 2 ^ 32

/-- Error taxonomy of the run-up to the selection loop. -/
inductive SubError where
  | noDestination
  | fastqWithoutQuality
  | sampleSizeExceedsPopulation
  deriving Repr, DecidableEq

/-- The output destinations and mode flags consumed by `subsample`
(`opt_fastaout`, `opt_fastaout_discarded`, `opt_fastqout`,
`opt_fastqout_discarded` as presence booleans, and `opt_sizein`). -/
structure SubConfig where
  fastaout : Bool
  fastaout_discarded : Bool
  fastqout : Bool
  fastqout_discarded : Bool
  sizein : Bool
  deriving Repr, DecidableEq

/-- Modelled from the spec: the command-line validation layer (it is outside
`src/subsample.cc`) rejects a run in which none of the four output
destinations is configured; the spec places this configuration check before
any population scan. -/
def noOutputConfigured (cfg : SubConfig) : Bool :=
  !cfg.fastaout && !cfg.fastaout_discarded && !cfg.fastqout && !cfg.fastqout_discarded

/-- Observable outcome of a `subsample` run: the fatal error raised, if any,
the per-group selected counts, and the kept/discarded records emitted. -/
structure SubOutput where
  err : Option SubError
  abundance : List Nat
  kept : List (Nat × Int)
  discarded : List (Nat × Int)
  deriving Repr, DecidableEq

/-- The `subsample` run at the granularity of the claims: the (spec-modelled)
destination check, then — after the database `dbw`/`dbIsFastq` is read — the
FASTQ-without-quality check of line 122, the `n > mass_total` precondition of
lines 175–178, and finally selection and partition.  A fatal error leaves the
counts as they stood (the `abundance` vector of line 162 is allocated only
after the database is read) and emits nothing. -/
def subsampleRun (cfg : SubConfig) (dbw : List Nat) (dbIsFastq : Bool)
    (n : Nat) (rng : Nat → Nat) : SubOutput :=
  if noOutputConfigured cfg then
    { err := some .noDestination, abundance := [], kept := [], discarded := [] }
  else if (cfg.fastqout || cfg.fastqout_discarded) && !dbIsFastq then
    { err := some .fastqWithoutQuality, abundance := [], kept := [],
      discarded := [] }
  else if massTotal cfg.sizein dbw < n then
    { err := some .sampleSizeExceedsPopulation,
      abundance := List.replicate dbw.length 0, kept := [], discarded := [] }
  else
    let st := subsampleSelect cfg.sizein dbw n rng
    let p := partitionPass cfg.sizein dbw st.s
    { err := none, abundance := st.s, kept := p.1, discarded := p.2 }

/-! ### Helper lemmas about list counters -/

theorem incAt_length (l : List Nat) (i : Nat) :
    (incAt l i).length = l.length := by
  simp [incAt]

theorem incAt_getD_self (l : List Nat) (i : Nat) (h : i < l.length) :
    (incAt l i).getD i 0 = l.getD i 0 + 1 := by
  induction l generalizing i with
  | nil => simp at h
  | cons hd tl ih =>
      cases i with
      | zero => simp [incAt]
      | succ j =>
          simp only [List.length_cons, Nat.succ_lt_succ_iff] at h
          simpa [incAt, List.getD_cons_succ] using ih j h

theorem incAt_getD_self_le (l : List Nat) (i : Nat) :
    (incAt l i).getD i 0 ≤ l.getD i 0 + 1 := by
  rcases Nat.lt_or_ge i l.length with h | h
  · exact Nat.le_of_eq (incAt_getD_self l i h)
  · rw [incAt, List.set_eq_of_length_le h]
    exact Nat.le_succ _

theorem incAt_getD_ne (l : List Nat) (i j : Nat) (h : i ≠ j) :
    (incAt l i).getD j 0 = l.getD j 0 := by
  induction l generalizing i j with
  | nil => simp [incAt]
  | cons hd tl ih =>
      cases i with
      | zero =>
          cases j with
          | zero => exact absurd rfl h
          | succ j' => simp [incAt, List.getD_cons_succ]
      | succ i' =>
          cases j with
          | zero => simp [incAt]
          | succ j' =>
              have h' : i' ≠ j' := fun hc => h (by simp [hc])
              simpa [incAt, List.getD_cons_succ] using ih i' j' h'

theorem incAt_sum (l : List Nat) (i : Nat) (h : i < l.length) :
    (incAt l i).sum = l.sum + 1 := by
  induction l generalizing i with
  | nil => simp at h
  | cons hd tl ih =>
      cases i with
      | zero => simp [incAt, List.sum_cons]; omega
      | succ j =>
          simp only [List.length_cons, Nat.succ_lt_succ_iff] at h
          have := ih j h
          simp only [incAt, List.getD_cons_succ, List.set_cons_succ,
            List.sum_cons] at this ⊢
          omega

theorem getD_replicate_zero (k i : Nat) :
    (List.replicate k (0 : Nat)).getD i 0 = 0 := by
  rcases Nat.lt_or_ge i k with h | h
  · rw [List.getD_eq_getElem _ _ (by simpa using h)]
    simp
  · exact List.getD_eq_default _ _ (by simpa using h)

theorem sum_map_getD_range (w : List Nat) :
    ((List.range w.length).map (fun i => w.getD i 0)).sum = w.sum := by
  induction w with
  | nil => simp
  | cons hd tl ih =>
      have hrange : List.range (tl.length + 1) =
          0 :: (List.range tl.length).map Nat.succ := List.range_succ_eq_map _
      calc ((List.range (hd :: tl).length).map
              (fun i => (hd :: tl).getD i 0)).sum
          = hd + (((List.range tl.length).map Nat.succ).map
              (fun i => (hd :: tl).getD i 0)).sum := by
            simp [hrange]
        _ = hd + ((List.range tl.length).map (fun i => tl.getD i 0)).sum := by
            rw [List.map_map]
            rfl
        _ = hd + tl.sum := by rw [ih]
        _ = (hd :: tl).sum := by simp

/-- Total mass of the groups strictly before group `a` (the first virtual
unit of group `a` has ordinal `massBefore a`). -/
def massBefore (sizein : Bool) (w : List Nat) (a : Nat) : Nat :=
  ((List.range a).map (groupWeight sizein w)).sum

theorem massBefore_succ (sizein : Bool) (w : List Nat) (a : Nat) :
    massBefore sizein w (a + 1) =
      massBefore sizein w a + groupWeight sizein w a := by
  simp [massBefore, List.range_succ]

theorem sum_map_one_range (n : Nat) :
    ((List.range n).map (fun _ : Nat => (1 : Nat))).sum = n := by
  induction n with
  | zero => simp
  | succ k ih => simp [List.range_succ, ih]

theorem massBefore_length (sizein : Bool) (w : List Nat) :
    massBefore sizein w w.length = massTotal sizein w := by
  cases sizein with
  | false => exact sum_map_one_range w.length
  | true => exact sum_map_getD_range w

/-! ### Basic facts about the selection loop -/

theorem selStep_r (sizein : Bool) (w : List Nat) (rng : Nat → Nat)
    (st : SelState) : (selStep sizein w rng st).r = st.r + 1 := by
  simp only [selStep]
  split <;> rfl

theorem selStep_x_le (sizein : Bool) (w : List Nat) (rng : Nat → Nat)
    (st : SelState) : (selStep sizein w rng st).x ≤ st.x := by
  simp only [selStep]
  split <;> (simp only []; split <;> omega)

theorem selStep_bound (sizein : Bool) (w : List Nat) (rng : Nat → Nat)
    (st : SelState) (hx : 0 < st.x)
    (hb : st.x + st.r ≤ massTotal sizein w)
    (hr : rng st.r < massTotal sizein w - st.r) :
    (selStep sizein w rng st).x + (selStep sizein w rng st).r ≤
      massTotal sizein w := by
  simp only [selStep]
  split <;> (simp only []; split <;> omega)

theorem selLoop_of_x_eq_zero (sizein : Bool) (w : List Nat) (rng : Nat → Nat)
    (st : SelState) (h : st.x = 0) :
    ∀ fuel, selLoop sizein w rng fuel st = st
  | 0 => rfl
  | fuel + 1 => by simp [selLoop, h]

theorem selLoop_succ_of_x_ne_zero (sizein : Bool) (w : List Nat)
    (rng : Nat → Nat) (st : SelState) (h : ¬ st.x = 0) (fuel : Nat) :
    selLoop sizein w rng (fuel + 1) st =
      selLoop sizein w rng fuel (selStep sizein w rng st) := by
  simp [selLoop, h]

theorem selLoop_bound (sizein : Bool) (w : List Nat) (rng : Nat → Nat)
    (Hrng : ∀ i, i < massTotal sizein w →
      rng i < massTotal sizein w - i) :
    ∀ (fuel : Nat) (st : SelState), st.x + st.r ≤ massTotal sizein w →
      (selLoop sizein w rng fuel st).x + (selLoop sizein w rng fuel st).r ≤
        massTotal sizein w
  | 0, _, h => h
  | fuel + 1, st, h => by
      by_cases hx : st.x = 0
      · rw [selLoop_of_x_eq_zero sizein w rng st hx]
        exact h
      · rw [selLoop_succ_of_x_ne_zero sizein w rng st hx fuel]
        have hx' : 0 < st.x := Nat.pos_of_ne_zero hx
        have hrlt : st.r < massTotal sizein w := by omega
        exact selLoop_bound sizein w rng Hrng fuel _
          (selStep_bound sizein w rng st hx' h (Hrng st.r hrlt))

theorem selLoop_term (sizein : Bool) (w : List Nat) (rng : Nat → Nat)
    (Hrng : ∀ i, i < massTotal sizein w →
      rng i < massTotal sizein w - i) :
    ∀ (fuel : Nat) (st : SelState), st.x + st.r ≤ massTotal sizein w →
      massTotal sizein w ≤ fuel + st.r →
      (selLoop sizein w rng fuel st).x = 0
  | 0, st, h, hf => by
      have : st.x = 0 := by omega
      simpa [selLoop] using this
  | fuel + 1, st, h, hf => by
      by_cases hx : st.x = 0
      · rw [selLoop_of_x_eq_zero sizein w rng st hx]
        exact hx
      · rw [selLoop_succ_of_x_ne_zero sizein w rng st hx fuel]
        have hx' : 0 < st.x := Nat.pos_of_ne_zero hx
        have hrlt : st.r < massTotal sizein w := by omega
        have hb := selStep_bound sizein w rng st hx' h (Hrng st.r hrlt)
        have hr := selStep_r sizein w rng st
        exact selLoop_term sizein w rng Hrng fuel _ hb (by omega)

theorem subsampleSelect_x_eq_zero (sizein : Bool) (w : List Nat) (n : Nat)
    (rng : Nat → Nat) (Hn : n ≤ massTotal sizein w)
    (Hrng : ∀ i, i < massTotal sizein w →
      rng i < massTotal sizein w - i) :
    (subsampleSelect sizein w n rng).x = 0 := by
  exact selLoop_term sizein w rng Hrng (massTotal sizein w)
    (selInit sizein w n) (by simpa [selInit] using Hn) (by simp [selInit])

theorem selStep_s (sizein : Bool) (w : List Nat) (rng : Nat → Nat)
    (st : SelState) :
    (selStep sizein w rng st).s =
      if rng st.r < st.x then incAt st.s st.a else st.s := by
  simp only [selStep]
  split <;> rfl

theorem selStep_x (sizein : Bool) (w : List Nat) (rng : Nat → Nat)
    (st : SelState) :
    (selStep sizein w rng st).x =
      if rng st.r < st.x then st.x - 1 else st.x := by
  simp only [selStep]
  split <;> rfl

theorem selStep_a (sizein : Bool) (w : List Nat) (rng : Nat → Nat)
    (st : SelState) :
    (selStep sizein w rng st).a =
      if st.mass ≤ st.m + 1 then st.a + 1 else st.a := by
  simp only [selStep]
  split <;> simp_all

theorem selStep_m (sizein : Bool) (w : List Nat) (rng : Nat → Nat)
    (st : SelState) :
    (selStep sizein w rng st).m =
      if st.mass ≤ st.m + 1 then 0 else st.m + 1 := by
  simp only [selStep]
  split <;> simp_all

theorem selStep_mass (sizein : Bool) (w : List Nat) (rng : Nat → Nat)
    (st : SelState) :
    (selStep sizein w rng st).mass =
      if st.mass ≤ st.m + 1 then groupWeight sizein w (st.a + 1)
      else st.mass := by
  simp only [selStep]
  split <;> simp_all

/-- The loop invariant of the selection phase, for populations whose groups
all have strictly positive weight: the counts vector keeps the population's
length, counts selected reads exactly, never overshoots a group's weight,
and the loop counters decompose the examined-unit ordinal `r` into finished
groups plus the offset inside the current group. -/
def SelInv (sizein : Bool) (w : List Nat) (n : Nat) (st : SelState) : Prop :=
  st.s.length = w.length ∧
  st.s.sum + st.x = n ∧
  st.x + st.r ≤ massTotal sizein w ∧
  st.a ≤ w.length ∧
  st.mass = groupWeight sizein w st.a ∧
  st.r = massBefore sizein w st.a + st.m ∧
  (st.a < w.length → st.m < st.mass) ∧
  (st.a = w.length → st.m = 0) ∧
  (∀ i, i < st.a → st.s.getD i 0 ≤ groupWeight sizein w i) ∧
  st.s.getD st.a 0 ≤ st.m ∧
  (∀ i, st.a < i → st.s.getD i 0 = 0)

theorem selInit_inv (sizein : Bool) (w : List Nat) (n : Nat)
    (Hpos : ∀ i, i < w.length → 1 ≤ groupWeight sizein w i)
    (Hn : n ≤ massTotal sizein w) :
    SelInv sizein w n (selInit sizein w n) := by
  refine ⟨by simp [selInit], by simp [selInit], by simpa [selInit] using Hn,
    Nat.zero_le _, rfl, by simp [selInit, massBefore], ?_, fun _ => rfl,
    ?_, ?_, ?_⟩
  · intro hk
    exact Hpos 0 hk
  · intro i hi
    exact absurd hi (Nat.not_lt_zero i)
  · exact Nat.le_of_eq (getD_replicate_zero w.length 0)
  · intro i _
    exact getD_replicate_zero w.length i

theorem selStep_inv (sizein : Bool) (w : List Nat) (rng : Nat → Nat) (n : Nat)
    (st : SelState)
    (Hpos : ∀ i, i < w.length → 1 ≤ groupWeight sizein w i)
    (hx : 0 < st.x)
    (hrng : rng st.r < massTotal sizein w - st.r)
    (h : SelInv sizein w n st) :
    SelInv sizein w n (selStep sizein w rng st) := by
  obtain ⟨hlen, hsum, hbound, hak, hmass, hr, hmlt, hmk, hclt, hca, hcgt⟩ := h
  have halt : st.a < w.length := by
    rcases Nat.lt_or_ge st.a w.length with h' | h'
    · exact h'
    · exfalso
      have ha : st.a = w.length := Nat.le_antisymm hak h'
      have hm0 : st.m = 0 := hmk ha
      have hM : massBefore sizein w st.a = massTotal sizein w := by
        rw [ha, massBefore_length]
      omega
  have hmlt' : st.m < st.mass := hmlt halt
  have has : st.a < st.s.length := by omega
  have hms := massBefore_succ sizein w st.a
  refine ⟨?_, ?_, selStep_bound sizein w rng st hx hbound hrng, ?_, ?_, ?_,
    ?_, ?_, ?_, ?_, ?_⟩
  -- length of the counts vector
  · rw [selStep_s sizein w rng st]
    by_cases hsel : rng st.r < st.x
    · rw [if_pos hsel, incAt_length]
      exact hlen
    · rw [if_neg hsel]
      exact hlen
  -- sum accounting
  · rw [selStep_s sizein w rng st, selStep_x sizein w rng st]
    by_cases hsel : rng st.r < st.x
    · rw [if_pos hsel, if_pos hsel, incAt_sum st.s st.a has]
      omega
    · rw [if_neg hsel, if_neg hsel]
      exact hsum
  -- current amplicon stays within the population
  · rw [selStep_a sizein w rng st]
    by_cases hadv : st.mass ≤ st.m + 1
    · rw [if_pos hadv]
      omega
    · rw [if_neg hadv]
      exact hak
  -- the cached mass is the current amplicon's weight
  · rw [selStep_mass sizein w rng st, selStep_a sizein w rng st]
    by_cases hadv : st.mass ≤ st.m + 1
    · rw [if_pos hadv, if_pos hadv]
    · rw [if_neg hadv, if_neg hadv]
      exact hmass
  -- decomposition of the examined-unit ordinal
  · rw [selStep_r sizein w rng st, selStep_a sizein w rng st,
      selStep_m sizein w rng st]
    by_cases hadv : st.mass ≤ st.m + 1
    · rw [if_pos hadv, if_pos hadv]
      omega
    · rw [if_neg hadv, if_neg hadv]
      omega
  -- offset stays below the current mass
  · rw [selStep_a sizein w rng st, selStep_m sizein w rng st,
      selStep_mass sizein w rng st]
    by_cases hadv : st.mass ≤ st.m + 1
    · rw [if_pos hadv, if_pos hadv, if_pos hadv]
      intro h'
      exact Hpos _ h'
    · rw [if_neg hadv, if_neg hadv, if_neg hadv]
      intro _
      omega
  -- at the end of the population the offset is zero
  · rw [selStep_a sizein w rng st, selStep_m sizein w rng st]
    by_cases hadv : st.mass ≤ st.m + 1
    · rw [if_pos hadv, if_pos hadv]
      intro _
      rfl
    · rw [if_neg hadv, if_neg hadv]
      intro ha
      exfalso
      omega
  -- finished amplicons never exceed their weight
  · simp only [selStep_s, selStep_a]
    by_cases hadv : st.mass ≤ st.m + 1 <;> by_cases hsel : rng st.r < st.x <;>
      simp only [hadv, hsel, if_true, if_false]
    · intro i hi
      rcases Nat.lt_or_eq_of_le (Nat.lt_succ_iff.mp hi) with hlt | heq
      · rw [incAt_getD_ne st.s st.a i (by omega)]
        exact hclt i hlt
      · subst heq
        rw [incAt_getD_self st.s st.a has]
        omega
    · intro i hi
      rcases Nat.lt_or_eq_of_le (Nat.lt_succ_iff.mp hi) with hlt | heq
      · exact hclt i hlt
      · subst heq
        omega
    · intro i hi
      rw [incAt_getD_ne st.s st.a i (by omega)]
      exact hclt i hi
    · exact hclt
  -- the current amplicon's count is bounded by its consumed units
  · simp only [selStep_s, selStep_a, selStep_m]
    by_cases hadv : st.mass ≤ st.m + 1 <;> by_cases hsel : rng st.r < st.x <;>
      simp only [hadv, hsel, if_true, if_false]
    · rw [incAt_getD_ne st.s st.a (st.a + 1) (by omega),
        hcgt (st.a + 1) (Nat.lt_succ_self _)]
    · rw [hcgt (st.a + 1) (Nat.lt_succ_self _)]
    · rw [incAt_getD_self st.s st.a has]
      omega
    · omega
  -- unreached amplicons have count zero
  · simp only [selStep_s, selStep_a]
    by_cases hadv : st.mass ≤ st.m + 1 <;> by_cases hsel : rng st.r < st.x <;>
      simp only [hadv, hsel, if_true, if_false]
    · intro i hi
      rw [incAt_getD_ne st.s st.a i (by omega)]
      exact hcgt i (by omega)
    · intro i hi
      exact hcgt i (by omega)
    · intro i hi
      rw [incAt_getD_ne st.s st.a i (by omega)]
      exact hcgt i hi
    · exact hcgt

theorem selLoop_inv (sizein : Bool) (w : List Nat) (rng : Nat → Nat) (n : Nat)
    (Hpos : ∀ i, i < w.length → 1 ≤ groupWeight sizein w i)
    (Hrng : ∀ i, i < massTotal sizein w →
      rng i < massTotal sizein w - i) :
    ∀ (fuel : Nat) (st : SelState), SelInv sizein w n st →
      SelInv sizein w n (selLoop sizein w rng fuel st)
  | 0, _, h => h
  | fuel + 1, st, h => by
      by_cases hx : st.x = 0
      · rw [selLoop_of_x_eq_zero sizein w rng st hx]
        exact h
      · rw [selLoop_succ_of_x_ne_zero sizein w rng st hx fuel]
        have hx' : 0 < st.x := Nat.pos_of_ne_zero hx
        have hbound : st.x + st.r ≤ massTotal sizein w := h.2.2.1
        have hrlt : st.r < massTotal sizein w := by omega
        exact selLoop_inv sizein w rng n Hpos Hrng fuel _
          (selStep_inv sizein w rng n st Hpos hx' (Hrng st.r hrlt) h)

theorem subsampleSelect_inv (sizein : Bool) (w : List Nat) (n : Nat)
    (rng : Nat → Nat)
    (Hpos : ∀ i, i < w.length → 1 ≤ groupWeight sizein w i)
    (Hn : n ≤ massTotal sizein w)
    (Hrng : ∀ i, i < massTotal sizein w →
      rng i < massTotal sizein w - i) :
    SelInv sizein w n (subsampleSelect sizein w n rng) :=
  selLoop_inv sizein w rng n Hpos Hrng (massTotal sizein w)
    (selInit sizein w n) (selInit_inv sizein w n Hpos Hn)

/-! ### An unconditional bound on the per-group counts

Whatever the weights and the draws, a group's count never exceeds
`max weight 1`: each loop iteration attributes one virtual unit to the
current group and the group is left after at most `max mass 1` units. -/

def CountInv (sizein : Bool) (w : List Nat) (st : SelState) : Prop :=
  st.mass = groupWeight sizein w st.a ∧
  st.m < max st.mass 1 ∧
  (∀ i, i < st.a → st.s.getD i 0 ≤ max (groupWeight sizein w i) 1) ∧
  st.s.getD st.a 0 ≤ st.m ∧
  (∀ i, st.a < i → st.s.getD i 0 = 0)

theorem selInit_countInv (sizein : Bool) (w : List Nat) (n : Nat) :
    CountInv sizein w (selInit sizein w n) := by
  refine ⟨rfl, ?_, ?_, ?_, ?_⟩
  · have := Nat.le_max_right (groupWeight sizein w 0) 1
    simp only [selInit]
    omega
  · intro i hi
    exact absurd hi (Nat.not_lt_zero i)
  · exact Nat.le_of_eq (getD_replicate_zero w.length 0)
  · intro i _
    exact getD_replicate_zero w.length i

theorem selStep_countInv (sizein : Bool) (w : List Nat) (rng : Nat → Nat)
    (st : SelState) (h : CountInv sizein w st) :
    CountInv sizein w (selStep sizein w rng st) := by
  obtain ⟨hmass, hm, hclt, hca, hcgt⟩ := h
  have hself := incAt_getD_self_le st.s st.a
  refine ⟨?_, ?_, ?_, ?_, ?_⟩
  · rw [selStep_mass sizein w rng st, selStep_a sizein w rng st]
    by_cases hadv : st.mass ≤ st.m + 1
    · rw [if_pos hadv, if_pos hadv]
    · rw [if_neg hadv, if_neg hadv]
      exact hmass
  · rw [selStep_m sizein w rng st, selStep_mass sizein w rng st]
    by_cases hadv : st.mass ≤ st.m + 1
    · rw [if_pos hadv, if_pos hadv]
      have := Nat.le_max_right (groupWeight sizein w (st.a + 1)) 1
      omega
    · rw [if_neg hadv, if_neg hadv]
      have := Nat.le_max_left st.mass 1
      omega
  · simp only [selStep_s, selStep_a]
    by_cases hadv : st.mass ≤ st.m + 1 <;> by_cases hsel : rng st.r < st.x <;>
      simp only [hadv, hsel, if_true, if_false]
    · intro i hi
      rcases Nat.lt_or_eq_of_le (Nat.lt_succ_iff.mp hi) with hlt | heq
      · rw [incAt_getD_ne st.s st.a i (by omega)]
        exact hclt i hlt
      · subst heq
        rw [← hmass]
        omega
    · intro i hi
      rcases Nat.lt_or_eq_of_le (Nat.lt_succ_iff.mp hi) with hlt | heq
      · exact hclt i hlt
      · subst heq
        rw [← hmass]
        omega
    · intro i hi
      rw [incAt_getD_ne st.s st.a i (by omega)]
      exact hclt i hi
    · exact hclt
  · simp only [selStep_s, selStep_a, selStep_m]
    by_cases hadv : st.mass ≤ st.m + 1 <;> by_cases hsel : rng st.r < st.x <;>
      simp only [hadv, hsel, if_true, if_false]
    · rw [incAt_getD_ne st.s st.a (st.a + 1) (by omega),
        hcgt (st.a + 1) (Nat.lt_succ_self _)]
    · rw [hcgt (st.a + 1) (Nat.lt_succ_self _)]
    · omega
    · omega
  · simp only [selStep_s, selStep_a]
    by_cases hadv : st.mass ≤ st.m + 1 <;> by_cases hsel : rng st.r < st.x <;>
      simp only [hadv, hsel, if_true, if_false]
    · intro i hi
      rw [incAt_getD_ne st.s st.a i (by omega)]
      exact hcgt i (by omega)
    · intro i hi
      exact hcgt i (by omega)
    · intro i hi
      rw [incAt_getD_ne st.s st.a i (by omega)]
      exact hcgt i hi
    · exact hcgt

theorem selLoop_countInv (sizein : Bool) (w : List Nat) (rng : Nat → Nat) :
    ∀ (fuel : Nat) (st : SelState), CountInv sizein w st →
      CountInv sizein w (selLoop sizein w rng fuel st)
  | 0, _, h => h
  | fuel + 1, st, h => by
      by_cases hx : st.x = 0
      · rw [selLoop_of_x_eq_zero sizein w rng st hx]
        exact h
      · rw [selLoop_succ_of_x_ne_zero sizein w rng st hx fuel]
        exact selLoop_countInv sizein w rng fuel _
          (selStep_countInv sizein w rng st h)

theorem subsampleSelect_count_le (sizein : Bool) (w : List Nat) (n : Nat)
    (rng : Nat → Nat) (i : Nat) :
    (subsampleSelect sizein w n rng).s.getD i 0 ≤
      max (groupWeight sizein w i) 1 := by
  have h : CountInv sizein w (subsampleSelect sizein w n rng) :=
    selLoop_countInv sizein w rng (massTotal sizein w) (selInit sizein w n)
      (selInit_countInv sizein w n)
  obtain ⟨hmass, hm, hclt, hca, hcgt⟩ := h
  rcases Nat.lt_trichotomy i (subsampleSelect sizein w n rng).a with hlt | heq | hgt
  · exact hclt i hlt
  · rw [heq, ← hmass]
    omega
  · rw [hcgt i hgt]
    exact Nat.zero_le _

/-! ### Sums of the partition pass -/

theorem sum_map_intCast (f : Nat → Nat) :
    ∀ L : List Nat,
      (L.map (fun i => (f i : Int))).sum = ((L.map f).sum : Int)
  | [] => by simp
  | i :: t => by
      simp [sum_map_intCast f t]

theorem partitionAux_kept_sum (sizein : Bool) (w s : List Nat) :
    ∀ L : List Nat,
      ((partitionAux sizein w s L).1.map Prod.snd).sum =
        (L.map (fun i => (s.getD i 0 : Int))).sum
  | [] => by simp [partitionAux]
  | i :: t => by
      have ih := partitionAux_kept_sum sizein w s t
      simp only [partitionAux, List.map_cons, List.sum_cons, List.map_append,
        List.sum_append, ih]
      by_cases hpos : (0 : Int) < (s.getD i 0 : Int)
      · rw [if_pos hpos]
        simp only [List.map_cons, List.map_nil, List.sum_cons, List.sum_nil,
          add_zero]
      · rw [if_neg hpos]
        have h0 : (s.getD i 0 : Int) = 0 := by
          have : (0 : Int) ≤ (s.getD i 0 : Int) := Int.natCast_nonneg _
          omega
        simp only [List.map_nil, List.sum_nil, zero_add, h0]

theorem partitionAux_disc_sum (sizein : Bool) (w s : List Nat) :
    ∀ L : List Nat, (∀ i ∈ L, s.getD i 0 ≤ groupWeight sizein w i) →
      ((partitionAux sizein w s L).2.map Prod.snd).sum =
        (L.map (fun i =>
          (groupWeight sizein w i : Int) - (s.getD i 0 : Int))).sum
  | [], _ => by simp [partitionAux]
  | i :: t, h => by
      have ih := partitionAux_disc_sum sizein w s t
        (fun j hj => h j (List.mem_cons_of_mem i hj))
      have hi : (s.getD i 0 : Int) ≤ (groupWeight sizein w i : Int) :=
        Int.ofNat_le.mpr (h i (List.mem_cons_self i t))
      simp only [partitionAux, List.map_cons, List.sum_cons, List.map_append,
        List.sum_append, ih]
      by_cases hpos :
          (0 : Int) < (groupWeight sizein w i : Int) - (s.getD i 0 : Int)
      · rw [if_pos hpos]
        simp only [List.map_cons, List.map_nil, List.sum_cons, List.sum_nil,
          add_zero]
      · have h0 :
            (groupWeight sizein w i : Int) - (s.getD i 0 : Int) = 0 := by
          omega
        rw [if_neg hpos]
        simp only [List.map_nil, List.sum_nil, zero_add, h0]

theorem partitionAux_disc_nil (sizein : Bool) (w s : List Nat) :
    ∀ L : List Nat, (∀ i ∈ L, groupWeight sizein w i ≤ s.getD i 0) →
      (partitionAux sizein w s L).2 = []
  | [], _ => by simp [partitionAux]
  | i :: t, h => by
      have ih := partitionAux_disc_nil sizein w s t
        (fun j hj => h j (List.mem_cons_of_mem i hj))
      have hi : (groupWeight sizein w i : Int) ≤ (s.getD i 0 : Int) :=
        Int.ofNat_le.mpr (h i (List.mem_cons_self i t))
      have hneg :
          ¬ (0 : Int) < (groupWeight sizein w i : Int) - (s.getD i 0 : Int) := by
        omega
      simp only [partitionAux]
      rw [if_neg hneg]
      simpa using ih

theorem sum_map_sub_int (g f : Nat → Int) :
    ∀ L : List Nat,
      (L.map (fun i => g i - f i)).sum = (L.map g).sum - (L.map f).sum
  | [] => by simp
  | i :: t => by
      simp [sum_map_sub_int g f t]
      ring

theorem map_eq_of_sum_eq {f g : Nat → Nat} :
    ∀ L : List Nat, (∀ i ∈ L, f i ≤ g i) →
      (L.map f).sum = (L.map g).sum → ∀ i ∈ L, f i = g i
  | [], _, _, i, hi => absurd hi (List.not_mem_nil i)
  | j :: t, hle, hsum, i, hi => by
      have htail : (t.map f).sum ≤ (t.map g).sum :=
        List.sum_le_sum (fun k hk => hle k (List.mem_cons_of_mem j hk))
      have hhead : f j ≤ g j := hle j (List.mem_cons_self j t)
      simp only [List.map_cons, List.sum_cons] at hsum
      have hj : f j = g j := by omega
      have hts : (t.map f).sum = (t.map g).sum := by omega
      rcases List.mem_cons.mp hi with hij | hit
      · rw [hij]
        exact hj
      · exact map_eq_of_sum_eq t
          (fun k hk => hle k (List.mem_cons_of_mem j hk)) hts i hit

/-- The combined outcome of the selection phase under positive weights:
exact total, preserved length, and per-group counts within the weights. -/
theorem subsampleSelect_result (sizein : Bool) (w : List Nat) (n : Nat)
    (rng : Nat → Nat)
    (Hpos : ∀ i, i < w.length → 1 ≤ groupWeight sizein w i)
    (Hn : n ≤ massTotal sizein w)
    (Hrng : ∀ i, i < massTotal sizein w →
      rng i < massTotal sizein w - i) :
    (subsampleSelect sizein w n rng).s.sum = n ∧
    (subsampleSelect sizein w n rng).s.length = w.length ∧
    ∀ i, i < w.length →
      (subsampleSelect sizein w n rng).s.getD i 0 ≤
        groupWeight sizein w i := by
  have hx0 := subsampleSelect_x_eq_zero sizein w n rng Hn Hrng
  obtain ⟨hlen, hsum, hbound, hak, hmass, hr, hmlt, hmk, hclt, hca, hcgt⟩ :=
    subsampleSelect_inv sizein w n rng Hpos Hn Hrng
  refine ⟨by omega, hlen, ?_⟩
  intro i hi
  rcases Nat.lt_trichotomy i (subsampleSelect sizein w n rng).a with
    hlt | heq | hgt
  · exact hclt i hlt
  · have hm := hmlt (heq ▸ hi)
    rw [heq]
    omega
  · rw [hcgt i hgt]
    exact Nat.zero_le _

/-! ### The claims -/

/-- Claim C1 (amended: every group weight is strictly positive): for every
population of `k` groups with weights `w_i ≥ 1` (total mass `M`) and every
requested sample size `n ≤ M`, the selection loop produces per-group selected
counts `s_i` with `0 ≤ s_i ≤ w_i` for every group `i` and `Σ s_i = n`
exactly. -/
theorem subsample_selection_result_invariants (sizein : Bool) (w : List Nat)
    (n : Nat) (rng : Nat → Nat)
    (Hpos : ∀ i, i < w.length → 1 ≤ groupWeight sizein w i)
    (Hn : n ≤ massTotal sizein w)
    (Hrng : ∀ i, i < massTotal sizein w →
      rng i < massTotal sizein w - i) :
    (subsampleSelect sizein w n rng).s.sum = n ∧
    (subsampleSelect sizein w n rng).s.length = w.length ∧
    ∀ i, i < w.length →
      (subsampleSelect sizein w n rng).s.getD i 0 ≤
        groupWeight sizein w i :=
  subsampleSelect_result sizein w n rng Hpos Hn Hrng

/-- Witness for C1: weights `[2, 3]`, `n = 2`, the all-zero draw sequence. -/
theorem subsample_selection_result_invariants_witness :
    ((∀ i, i < List.length [2, 3] → 1 ≤ groupWeight true [2, 3] i) ∧
      2 ≤ massTotal true [2, 3] ∧
      (∀ i, i < massTotal true [2, 3] →
        (fun _ => 0) i < massTotal true [2, 3] - i)) ∧
    ((subsampleSelect true [2, 3] 2 (fun _ => 0)).s.sum = 2 ∧
      (subsampleSelect true [2, 3] 2 (fun _ => 0)).s.length =
        List.length [2, 3] ∧
      ∀ i, i < List.length [2, 3] →
        (subsampleSelect true [2, 3] 2 (fun _ => 0)).s.getD i 0 ≤
          groupWeight true [2, 3] i) :=
  ⟨⟨by decide, by decide, by decide⟩,
    subsample_selection_result_invariants true [2, 3] 2 (fun _ => 0)
      (by decide) (by decide) (by decide)⟩

/-- Counterexample to C1 as stated: the population `[0, 1]` (a zero-weight
group, allowed by the spec's data model `w_i ≥ 0`) with `n = 1 ≤ M = 1` and
an in-range draw sequence yields `s_0 = 1 > 0 = w_0`: the first virtual unit
is attributed to group 0 even though group 0 owns no virtual units. -/
theorem subsample_selection_zero_weight_cex :
    (∀ i, i < massTotal true [0, 1] →
      (fun _ => 0) i < massTotal true [0, 1] - i) ∧
    1 ≤ massTotal true [0, 1] ∧
    ¬ ((subsampleSelect true [0, 1] 1 (fun _ => 0)).s.getD 0 0 ≤
        groupWeight true [0, 1] 0) :=
  ⟨by decide, by decide, by decide⟩

/-- Claim C2, evaluated at the failing input: on the weighted population
`[1]` (one group, `k = 1`) with `n = M = 1` and any valid draw, the selection
loop selects the final virtual unit of the last group and then advances,
calling `db_getabundance` at group index 1, which is not `< k`: the loop does
read a group weight at an out-of-range index. -/
theorem subsample_weight_read_past_end :
    (∀ i, i < massTotal true [1] →
      (fun _ => 0) i < massTotal true [1] - i) ∧
    1 ≤ massTotal true [1] ∧
    (subsampleSelect true [1] 1 (fun _ => 0)).reads = [1] ∧
    ¬ (1 < List.length [1]) :=
  ⟨by decide, by decide, by decide, by decide⟩

/-- Claim C3: for every `n ≤ M`, after any number `j` of loop iterations the
invariant `x ≤ M - r` holds (stated additively as `x + r ≤ M`), so whenever
the loop is about to draw (`x > 0`) the exclusive bound `M - r` is at least
1. -/
theorem subsample_draw_bound_invariant (sizein : Bool) (w : List Nat)
    (n : Nat) (rng : Nat → Nat) (j : Nat)
    (Hn : n ≤ massTotal sizein w)
    (Hrng : ∀ i, i < massTotal sizein w →
      rng i < massTotal sizein w - i) :
    (selLoop sizein w rng j (selInit sizein w n)).x +
        (selLoop sizein w rng j (selInit sizein w n)).r ≤
      massTotal sizein w ∧
    (0 < (selLoop sizein w rng j (selInit sizein w n)).x →
      1 ≤ massTotal sizein w -
        (selLoop sizein w rng j (selInit sizein w n)).r) := by
  have hb := selLoop_bound sizein w rng Hrng j (selInit sizein w n)
    (by simpa [selInit] using Hn)
  exact ⟨hb, fun hx => by omega⟩

/-- Witness for C3: weights `[3, 2, 5]`, `n = 4`, one iteration. -/
theorem subsample_draw_bound_invariant_witness :
    (4 ≤ massTotal true [3, 2, 5] ∧
      (∀ i, i < massTotal true [3, 2, 5] →
        (fun _ => 0) i < massTotal true [3, 2, 5] - i)) ∧
    ((selLoop true [3, 2, 5] (fun _ => 0) 1 (selInit true [3, 2, 5] 4)).x +
        (selLoop true [3, 2, 5] (fun _ => 0) 1 (selInit true [3, 2, 5] 4)).r ≤
      massTotal true [3, 2, 5] ∧
    (0 < (selLoop true [3, 2, 5] (fun _ => 0) 1 (selInit true [3, 2, 5] 4)).x →
      1 ≤ massTotal true [3, 2, 5] -
        (selLoop true [3, 2, 5] (fun _ => 0) 1 (selInit true [3, 2, 5] 4)).r)) :=
  ⟨⟨by decide, by decide⟩,
    subsample_draw_bound_invariant true [3, 2, 5] 4 (fun _ => 0) 1
      (by decide) (by decide)⟩

/-- Claim C4 (amended: every group weight is strictly positive): when
`n = M`, every virtual unit is selected, so `s_i = w_i` for every group `i`
and the partition pass emits no discarded-side records. -/
theorem subsample_full_mass_selects_all (sizein : Bool) (w : List Nat)
    (rng : Nat → Nat)
    (Hpos : ∀ i, i < w.length → 1 ≤ groupWeight sizein w i)
    (Hrng : ∀ i, i < massTotal sizein w →
      rng i < massTotal sizein w - i) :
    (∀ i, i < w.length →
      (subsampleSelect sizein w (massTotal sizein w) rng).s.getD i 0 =
        groupWeight sizein w i) ∧
    (partitionPass sizein w
      (subsampleSelect sizein w (massTotal sizein w) rng).s).2 = [] := by
  obtain ⟨hsum, hlen, hle⟩ :=
    subsampleSelect_result sizein w (massTotal sizein w) rng Hpos
      (Nat.le_refl _) Hrng
  have hgsum : ((List.range w.length).map (groupWeight sizein w)).sum =
      massTotal sizein w := massBefore_length sizein w
  have hssum : ((List.range w.length).map
      (fun i => (subsampleSelect sizein w (massTotal sizein w) rng).s.getD
        i 0)).sum = massTotal sizein w := by
    have h := sum_map_getD_range
      (subsampleSelect sizein w (massTotal sizein w) rng).s
    rw [hlen] at h
    rw [h, hsum]
  have heq : ∀ i ∈ List.range w.length,
      (subsampleSelect sizein w (massTotal sizein w) rng).s.getD i 0 =
        groupWeight sizein w i :=
    map_eq_of_sum_eq (List.range w.length)
      (fun i hi => hle i (List.mem_range.mp hi))
      (hssum.trans hgsum.symm)
  refine ⟨fun i hi => heq i (List.mem_range.mpr hi), ?_⟩
  exact partitionAux_disc_nil sizein w _ (List.range w.length)
    (fun i hi => Nat.le_of_eq (heq i hi).symm)

/-- Witness for C4: weights `[2, 3]`, `n = M = 5`. -/
theorem subsample_full_mass_selects_all_witness :
    ((∀ i, i < List.length [2, 3] → 1 ≤ groupWeight true [2, 3] i) ∧
      (∀ i, i < massTotal true [2, 3] →
        (fun _ => 0) i < massTotal true [2, 3] - i)) ∧
    ((∀ i, i < List.length [2, 3] →
      (subsampleSelect true [2, 3] (massTotal true [2, 3])
        (fun _ => 0)).s.getD i 0 = groupWeight true [2, 3] i) ∧
    (partitionPass true [2, 3]
      (subsampleSelect true [2, 3] (massTotal true [2, 3])
        (fun _ => 0)).s).2 = []) :=
  ⟨⟨by decide, by decide⟩,
    subsample_full_mass_selects_all true [2, 3] (fun _ => 0)
      (by decide) (by decide)⟩

/-- Counterexample to C4 as stated: on the population `[0, 1]` with
`n = M = 1` and an in-range draw sequence, the unit is misattributed to the
zero-weight group 0, so `s_0 = 1 ≠ 0 = w_0` and the partition pass emits a
discarded-side record for group 1. -/
theorem subsample_full_mass_zero_weight_cex :
    (∀ i, i < massTotal true [0, 1] →
      (fun _ => 0) i < massTotal true [0, 1] - i) ∧
    ¬ ((subsampleSelect true [0, 1] (massTotal true [0, 1])
        (fun _ => 0)).s.getD 0 0 = groupWeight true [0, 1] 0) ∧
    (partitionPass true [0, 1]
      (subsampleSelect true [0, 1] (massTotal true [0, 1])
        (fun _ => 0)).s).2 ≠ [] :=
  ⟨by decide, by decide, by decide⟩

/-- Claim C5: whenever the resolved sample size `n` exceeds the total mass
`M` (in a run that passes the earlier configuration checks), the fatal
precondition error is raised before the selection loop runs: the per-group
counts are all still zero, no record is emitted, and — the result being a
constant in `rng` — no draw is ever made. -/
theorem subsample_precondition_error (cfg : SubConfig) (dbw : List Nat)
    (dbIsFastq : Bool) (n : Nat) (rng : Nat → Nat)
    (hdest : noOutputConfigured cfg = false)
    (hq : ((cfg.fastqout || cfg.fastqout_discarded) && !dbIsFastq) = false)
    (hn : massTotal cfg.sizein dbw < n) :
    subsampleRun cfg dbw dbIsFastq n rng =
      { err := some SubError.sampleSizeExceedsPopulation,
        abundance := List.replicate dbw.length 0,
        kept := [], discarded := [] } := by
  simp only [subsampleRun, hdest, hq, Bool.false_eq_true, if_false,
    if_pos hn]

/-- Witness for C5: the spec's overflow scenario, weights `[3, 2, 5]`
(`M = 10`) and `n = 11`, with a FASTA kept destination configured. -/
theorem subsample_precondition_error_witness :
    (noOutputConfigured ⟨true, false, false, false, true⟩ = false ∧
      ((SubConfig.fastqout ⟨true, false, false, false, true⟩ ||
          SubConfig.fastqout_discarded ⟨true, false, false, false, true⟩) &&
        !false) = false ∧
      massTotal (SubConfig.sizein ⟨true, false, false, false, true⟩)
        [3, 2, 5] < 11) ∧
    subsampleRun ⟨true, false, false, false, true⟩ [3, 2, 5] false 11
        (fun _ => 0) =
      { err := some SubError.sampleSizeExceedsPopulation,
        abundance := List.replicate (List.length [3, 2, 5]) 0,
        kept := [], discarded := [] } :=
  ⟨⟨by decide, by decide, by decide⟩,
    subsample_precondition_error ⟨true, false, false, false, true⟩ [3, 2, 5]
      false 11 (fun _ => 0) (by decide) (by decide) (by decide)⟩

/-- Claim C7: if no output destination at all is configured, the
configuration error is raised before any population scan: for every database
content, quality flag, sample size and draw sequence the run returns the
`noDestination` error with no counts vector and no emitted record — the
outcome does not depend on anything read from the input or drawn from the
generator. -/
theorem subsample_no_destination_error (cfg : SubConfig)
    (hdest : noOutputConfigured cfg = true) :
    ∀ (dbw : List Nat) (dbIsFastq : Bool) (n : Nat) (rng : Nat → Nat),
      subsampleRun cfg dbw dbIsFastq n rng =
        { err := some SubError.noDestination, abundance := [],
          kept := [], discarded := [] } := by
  intro dbw dbIsFastq n rng
  simp only [subsampleRun, hdest, if_true]

/-- Witness for C7: the all-destinations-absent configuration, applied to a
concrete database. -/
theorem subsample_no_destination_error_witness :
    noOutputConfigured ⟨false, false, false, false, true⟩ = true ∧
    subsampleRun ⟨false, false, false, false, true⟩ [3, 2, 5] true 4
        (fun _ => 0) =
      { err := some SubError.noDestination, abundance := [],
        kept := [], discarded := [] } :=
  ⟨by decide,
    subsample_no_destination_error ⟨false, false, false, false, true⟩
      (by decide) [3, 2, 5] true 4 (fun _ => 0)⟩

/-- Claim C8: for every SelectionResult `s` (length `k`, `s_i ≤ w_i`
pointwise) with `Σ s_i = n` over a population of total mass `M`, the
partition pass emits kept weights summing to `n` and discarded weights
summing to `M - n`, their total being `M`. -/
theorem subsample_partition_sums (sizein : Bool) (w s : List Nat) (n : Nat)
    (hlen : s.length = w.length)
    (hle : ∀ i, i < w.length → s.getD i 0 ≤ groupWeight sizein w i)
    (hn : s.sum = n) :
    ((partitionPass sizein w s).1.map Prod.snd).sum = (n : Int) ∧
    ((partitionPass sizein w s).2.map Prod.snd).sum =
      (massTotal sizein w : Int) - (n : Int) ∧
    ((partitionPass sizein w s).1.map Prod.snd).sum +
        ((partitionPass sizein w s).2.map Prod.snd).sum =
      (massTotal sizein w : Int) := by
  have hgsum : ((List.range w.length).map (groupWeight sizein w)).sum =
      massTotal sizein w := massBefore_length sizein w
  have hssum : ((List.range w.length).map (fun i => s.getD i 0)).sum = n := by
    have h := sum_map_getD_range s
    rw [hlen] at h
    rw [h, hn]
  have hkept : ((partitionPass sizein w s).1.map Prod.snd).sum = (n : Int) := by
    rw [partitionPass, partitionAux_kept_sum sizein w s (List.range w.length),
      sum_map_intCast (fun i => s.getD i 0) (List.range w.length), hssum]
  have hdisc : ((partitionPass sizein w s).2.map Prod.snd).sum =
      (massTotal sizein w : Int) - (n : Int) := by
    rw [partitionPass, partitionAux_disc_sum sizein w s (List.range w.length)
        (fun i hi => hle i (List.mem_range.mp hi)),
      sum_map_sub_int (fun i => (groupWeight sizein w i : Int))
        (fun i => (s.getD i 0 : Int)) (List.range w.length),
      sum_map_intCast (groupWeight sizein w) (List.range w.length),
      sum_map_intCast (fun i => s.getD i 0) (List.range w.length),
      hssum, hgsum]
  exact ⟨hkept, hdisc, by rw [hkept, hdisc]; ring⟩

/-- Witness for C8: weights `[3, 2, 5]`, counts `[2, 1, 1]`, `n = 4`. -/
theorem subsample_partition_sums_witness :
    ((List.length [2, 1, 1] = List.length [3, 2, 5]) ∧
      (∀ i, i < List.length [3, 2, 5] →
        List.getD [2, 1, 1] i 0 ≤ groupWeight true [3, 2, 5] i) ∧
      List.sum [2, 1, 1] = 4) ∧
    (((partitionPass true [3, 2, 5] [2, 1, 1]).1.map Prod.snd).sum =
        (4 : Int) ∧
      ((partitionPass true [3, 2, 5] [2, 1, 1]).2.map Prod.snd).sum =
        (massTotal true [3, 2, 5] : Int) - (4 : Int) ∧
      ((partitionPass true [3, 2, 5] [2, 1, 1]).1.map Prod.snd).sum +
          ((partitionPass true [3, 2, 5] [2, 1, 1]).2.map Prod.snd).sum =
        (massTotal true [3, 2, 5] : Int)) :=
  ⟨⟨by decide, by decide, by decide⟩,
    subsample_partition_sums true [3, 2, 5] [2, 1, 1] 4
      (by decide) (by decide) (by decide)⟩

/-- Claim C9: for every `n ≤ M` the selection loop terminates with `x = 0`
having examined at most `M` virtual units; it returns immediately (examining
no further unit) from any state with `x = 0`; and `x` never increases at a
step. -/
theorem subsample_loop_terminates (sizein : Bool) (w : List Nat) (n : Nat)
    (rng : Nat → Nat)
    (Hn : n ≤ massTotal sizein w)
    (Hrng : ∀ i, i < massTotal sizein w →
      rng i < massTotal sizein w - i) :
    (subsampleSelect sizein w n rng).x = 0 ∧
    (subsampleSelect sizein w n rng).r ≤ massTotal sizein w ∧
    (∀ (st : SelState) (fuel : Nat), st.x = 0 →
      selLoop sizein w rng fuel st = st) ∧
    (∀ st : SelState, (selStep sizein w rng st).x ≤ st.x) := by
  have hb : (subsampleSelect sizein w n rng).x +
      (subsampleSelect sizein w n rng).r ≤ massTotal sizein w :=
    selLoop_bound sizein w rng Hrng (massTotal sizein w) (selInit sizein w n)
      (by simpa [selInit] using Hn)
  refine ⟨subsampleSelect_x_eq_zero sizein w n rng Hn Hrng, by omega, ?_, ?_⟩
  · exact fun st fuel h => selLoop_of_x_eq_zero sizein w rng st h fuel
  · exact fun st => selStep_x_le sizein w rng st

/-- Witness for C9: weights `[3, 2, 5]`, `n = 4`. -/
theorem subsample_loop_terminates_witness :
    (4 ≤ massTotal true [3, 2, 5] ∧
      (∀ i, i < massTotal true [3, 2, 5] →
        (fun _ => 0) i < massTotal true [3, 2, 5] - i)) ∧
    ((subsampleSelect true [3, 2, 5] 4 (fun _ => 0)).x = 0 ∧
      (subsampleSelect true [3, 2, 5] 4 (fun _ => 0)).r ≤
        massTotal true [3, 2, 5] ∧
      (∀ (st : SelState) (fuel : Nat), st.x = 0 →
        selLoop true [3, 2, 5] (fun _ => 0) fuel st = st) ∧
      (∀ st : SelState,
        (selStep true [3, 2, 5] (fun _ => 0) st).x ≤ st.x)) :=
  ⟨⟨by decide, by decide⟩,
    subsample_loop_terminates true [3, 2, 5] 4 (fun _ => 0)
      (by decide) (by decide)⟩

/-- Claim C10: per-group counts are accumulated in a 32-bit signed `int`
(while weights and the total mass are 64-bit): for every valid input with
`n ≤ M` whose group weights are all at most `2^31 - 1`, the stored count of
every group equals the mathematical selection count exactly — the count
never reaches the narrowing boundary. -/
theorem subsample_counts_fit_int32 (sizein : Bool) (w : List Nat) (n : Nat)
    (rng : Nat → Nat)
    (Hn : n ≤ massTotal sizein w)
    (Hw : ∀ i, i < w.length → groupWeight sizein w i ≤ 2 ^ 31 - 1) :
    ∀ i, i < w.length →
      int32store ((subsampleSelect sizein w n rng).s.getD i 0) =
        ((subsampleSelect sizein w n rng).s.getD i 0 : Int) := by
  intro i hi
  have hb := subsampleSelect_count_le sizein w n rng i
  have hmax : max (groupWeight sizein w i) 1 ≤ 2 ^ 31 - 1 :=
    Nat.max_le.mpr ⟨Hw i hi, by norm_num⟩
  have hlt : (subsampleSelect sizein w n rng).s.getD i 0 < 2 ^ 31 := by
    omega
  have hc : (subsampleSelect sizein w n rng).s.getD i 0 % 2 ^ 32 =
      (subsampleSelect sizein w n rng).s.getD i 0 :=
    Nat.mod_eq_of_lt (by omega)
  simp only [int32store, hc]
  rw [if_pos hlt]

/-- Witness for C10: weights `[2, 3]`, `n = 2`, group 0. -/
theorem subsample_counts_fit_int32_witness :
    (2 ≤ massTotal true [2, 3] ∧
      (∀ i, i < List.length [2, 3] →
        groupWeight true [2, 3] i ≤ 2 ^ 31 - 1) ∧
      0 < List.length [2, 3]) ∧
    int32store ((subsampleSelect true [2, 3] 2 (fun _ => 0)).s.getD 0 0) =
      ((subsampleSelect true [2, 3] 2 (fun _ => 0)).s.getD 0 0 : Int) :=
  ⟨⟨by decide, by decide, by decide⟩,
    subsample_counts_fit_int32 true [2, 3] 2 (fun _ => 0)
      (by decide) (by decide) 0 (by decide)⟩

end Subsample
